import Mathlib

/-!
Verification of the ternary codec of `iota/crypto/kerl/conv.pyx`.

The Cython source is shallowly embedded: C `int` arrays become `List ℤ`,
machine bytes are handled with explicit `% 256` masks, Python `//` and `%`
(floor division) are `Int.ediv`/`Int.emod` where the divisor is positive
(they coincide there) and `Int.fdiv`/`Int.fmod` where the divisor is
negative, and a Python `KeyError` raised by a dictionary lookup is
modelled by `Option`.
-/

set_option maxRecDepth 40000

namespace KerlConv

/-- Value of a balanced-ternary digit list, least significant digit first:
the represented integer is `d0 + 3*d1 + 9*d2 + ...`. -/
def tval : List ℤ → ℤ
  | [] => 0
  | x :: xs => x + 3 * tval xs

/-- Every entry of the list is a trit, i.e. lies in `[-1, 1]`. -/
def TritList (l : List ℤ) : Prop := ∀ x ∈ l, -1 ≤ x ∧ x ≤ 1

instance : DecidablePred TritList := fun l => by
  unfold TritList
  infer_instance

/-- Every entry of the list is a signed byte, i.e. lies in `[-128, 127]`. -/
def ByteList (l : List ℤ) : Prop := ∀ x ∈ l, -128 ≤ x ∧ x ≤ 127

instance : DecidablePred ByteList := fun l => by
  unfold ByteList
  infer_instance

/-- The mask `x & 0xFF` of the source applied to a signed machine integer:
the residue of `x` in `[0, 255]`. -/
def byteU (x : ℤ) : ℤ := x % 256

/-- Unsigned value of a little-endian byte list; each byte is first masked
with `& 0xFF`. -/
def uvalLE : List ℤ → ℤ
  | [] => 0
  | x :: xs => byteU x + 256 * uvalLE xs

/-- Unsigned value of a big-endian byte list (most significant byte first). -/
def uval (b : List ℤ) : ℤ := uvalLE b.reverse

/-- Value of an unmasked little-endian digit list in base 256. -/
def rawLE : List ℤ → ℤ
  | [] => 0
  | x :: xs => x + 256 * rawLE xs

/-- Value of a big-endian signed byte buffer read as a two's-complement
signed integer: the unsigned value, minus `256 ^ n` when the sign bit of the
most significant byte is set (for bytes in `[-128, 127]` that bit is set
exactly when the leading byte is negative). -/
def tcVal (b : List ℤ) : ℤ :=
  uval b - (if b.headD 0 < 0 then (256 : ℤ) ^ b.length else 0)

/-! ### The tryte table (conv.pyx lines 11-42) -/

/-- The 27-character tryte alphabet in table order. -/
def tryte_alphabet : List Char :=
  ['9', 'A', 'B', 'C', 'D', 'E', 'F', 'G', 'H', 'I', 'J', 'K', 'L', 'M',
   'N', 'O', 'P', 'Q', 'R', 'S', 'T', 'U', 'V', 'W', 'X', 'Y', 'Z']

/-- The dictionary `tryte_table` of the source, kept in source order as an
association list. -/
def tryte_pairs : List (Char × List ℤ) :=
  [('9', [0, 0, 0]),
   ('A', [1, 0, 0]),
   ('B', [-1, 1, 0]),
   ('C', [0, 1, 0]),
   ('D', [1, 1, 0]),
   ('E', [-1, -1, 1]),
   ('F', [0, -1, 1]),
   ('G', [1, -1, 1]),
   ('H', [-1, 0, 1]),
   ('I', [0, 0, 1]),
   ('J', [1, 0, 1]),
   ('K', [-1, 1, 1]),
   ('L', [0, 1, 1]),
   ('M', [1, 1, 1]),
   ('N', [-1, -1, -1]),
   ('O', [0, -1, -1]),
   ('P', [1, -1, -1]),
   ('Q', [-1, 0, -1]),
   ('R', [0, 0, -1]),
   ('S', [1, 0, -1]),
   ('T', [-1, 1, -1]),
   ('U', [0, 1, -1]),
   ('V', [1, 1, -1]),
   ('W', [-1, -1, 0]),
   ('X', [0, -1, 0]),
   ('Y', [1, -1, 0]),
   ('Z', [-1, 0, 0])]

/-- Lookup in `tryte_table`; `none` models the `KeyError` raised on an
unknown character. -/
def tryte_table (c : Char) : Option (List ℤ) :=
  (tryte_pairs.find? (fun p => p.1 == c)).map (fun p => p.2)

/-- Lookup in the inverted dictionary `trit_table` (line 42); `none` models
the `KeyError` raised on an unknown trit triple. -/
def trit_table (v : List ℤ) : Option Char :=
  (tryte_pairs.find? (fun p => p.2 == v)).map (fun p => p.1)

/-- Function `trytes_to_trits` (lines 44-49): the table entries of the
characters are concatenated; an unknown character aborts with a `KeyError`
(`none`). -/
def trytes_to_trits : List Char → Option (List ℤ)
  | [] => some []
  | c :: cs => do
      let v ← tryte_table c
      let rest ← trytes_to_trits cs
      pure (v ++ rest)

/-- The chunking `[trits[i:i+3] for i in range(0, len(trits), 3)]` of
line 53: successive slices of length 3, the last one possibly shorter. -/
def chunk3 : List ℤ → List (List ℤ)
  | [] => []
  | [a] => [[a]]
  | [a, b] => [[a, b]]
  | a :: b :: c :: rest => [a, b, c] :: chunk3 rest

/-- Lookup of every chunk in `trit_table` (lines 55-56); the single-character
results are joined in order. -/
def lookup_chunks : List (List ℤ) → Option (List Char)
  | [] => some []
  | ch :: rest => do
      let c ← trit_table ch
      let cs ← lookup_chunks rest
      pure (c :: cs)

/-- Function `trits_to_trytes` (lines 51-58). -/
def trits_to_trytes (trits : List ℤ) : Option (List Char) :=
  lookup_chunks (chunk3 trits)

/-! ### Shared byte-buffer loops (sub1 of lines 89-95 / 300-306, add1 of
lines 281-289 / 328-333) -/

/-- The `sub1` loop, written on the reversed (little-endian) buffer: the
borrow starts at the least significant byte and stops at the first byte
whose new signed value is not `-1`. -/
def sub1LE : List ℤ → List ℤ
  | [] => []
  | x :: xs =>
      let s := byteU x - 1
      let s1 := if s ≤ 127 then s else s - 256
      if s1 = -1 then s1 :: sub1LE xs else s1 :: xs

/-- The `sub1` loop of the source, which runs over the big-endian buffer
from its last (least significant) byte backwards. -/
def sub1 (b : List ℤ) : List ℤ := (sub1LE b.reverse).reverse

/-- The `add1` loop, written on the reversed (little-endian) buffer: the
carry starts at the least significant byte and stops at the first byte
whose new signed value is nonzero. -/
def add1LE : List ℤ → List ℤ
  | [] => []
  | x :: xs =>
      let a := byteU x + 1
      let a1 := if a ≤ 127 then a else a - 256
      if a1 = 0 then a1 :: add1LE xs else a1 :: xs

/-! ### bytes_to_trits (lines 71-197) -/

/-- View `temp_k[i] = padded_output[left_pad - k + i]` of lines 137-141:
the previous digit array shifted up by `k` positions (the five padding
cells in front of `padded_output` are zero). -/
def shiftD (o : List ℤ) (i k : ℕ) : ℤ := if k ≤ i then o.getD (i - k) 0 else 0

/-- Lines 147-148: `output[i] = temp0[i] + temp1[i] + temp2[i] + temp3[i]`,
the multiplication of the digit array by `256 = 1 + 3 + 9 + 243` in base 3,
truncated to 243 digits. -/
def mul256 (o : List ℤ) : List ℤ :=
  (List.range 243).map
    (fun i => shiftD o i 0 + shiftD o i 1 + shiftD o i 2 + shiftD o i 5)

/-- Lines 150-165: the digit-normalisation sweep with carry `q`; returns the
rewritten digits together with the final carry (which the source drops). -/
def normalizeAux (q : ℤ) : List ℤ → List ℤ × ℤ
  | [] => ([], q)
  | x :: xs =>
      let value := x + q
      if 1 < value ∨ value < -1 then
        let r0 := value % 3
        let q0 := value / 3
        let r := if 1 < r0 then (-1 : ℤ) else r0
        let q1 := if 1 < r0 then q0 + 1 else q0
        let p := normalizeAux q1 xs
        (r :: p.1, p.2)
      else
        let p := normalizeAux 0 xs
        (value :: p.1, p.2)

/-- Lines 167-185: the `while bytesArray[bai] > 0` loop adding one unsigned
byte into the low digits; returns the rewritten digits together with the
byte value still unprocessed when the digit array runs out. -/
def addByteAux (b : ℤ) : List ℤ → List ℤ × ℤ
  | [] => ([], b)
  | x :: xs =>
      if b ≤ 0 then (x :: xs, 0)
      else
        let r := b % 3
        let b1 := b / 3
        let v := r + x
        if 1 < v then
          let p := addByteAux (b1 + 1) xs
          ((v - 3) :: p.1, p.2)
        else
          let p := addByteAux b1 xs
          (v :: p.1, p.2)

/-- One iteration of the main loop of `bytes_to_trits` (lines 145-188) for
one input byte: multiply by 256, normalise the digits, add the byte.  The
`negative` flag of lines 168-172 is dead after the `& 0xFF` mask, but the
`abs` it guards is kept. -/
def btStep (o : List ℤ) (x : ℤ) : List ℤ :=
  (addByteAux (if x < 0 then -x else x) (normalizeAux 0 (mul256 o)).1).1

/-- Function `bytes_to_trits` (lines 71-197): two's-complement
sign-magnitude preprocessing (lines 84-102), 243-digit accumulation loop
(lines 145-188), final sign flip (lines 193-195). -/
def bytes_to_trits (bytes_k : List ℤ) : List ℤ :=
  let signum : ℤ := if 0 ≤ bytes_k.headD 0 then 1 else -1
  let arr1 := if signum = -1 then (sub1 bytes_k).map (fun x => -x - 1) else bytes_k
  let arr := arr1.map byteU
  let o := arr.foldl btStep (List.replicate 243 0)
  if signum = -1 then o.map (fun x => -x) else o

/-- Function `convertToTrits2` (lines 68-69). -/
def convertToTrits2 (bytes_k : List ℤ) : List ℤ := bytes_to_trits bytes_k

/-- Function `convertToTrits` (lines 60-61). -/
def convertToTrits (bytes_k : List ℤ) : List ℤ := convertToTrits2 bytes_k

/-! ### The arbitrary-precision reference path (lines 293-372) -/

/-- Function `convertBytesToBigInt` (lines 293-313). -/
def convertBytesToBigInt (ba : List ℤ) : ℤ :=
  let signum : ℤ := if 0 ≤ ba.headD 0 then 1 else -1
  let b2 := if signum = -1 then (sub1 ba).map (fun x => -x - 1) else ba
  uval b2 * signum

/-- Function `convertBigintToBytes` (lines 316-335). -/
def convertBigintToBytes (big : ℤ) : List ℤ :=
  let bytesArrayTemp := (List.range 48).map (fun pos => (|big| / 2 ^ (pos * 8)) % 256)
  let bytesArray := bytesArrayTemp.reverse.map (fun x => if x ≤ 127 then x else x - 256)
  if big < 0 then
    (add1LE ((bytesArray.map (fun x => -x - 1)).reverse)).reverse
  else bytesArray

/-- Function `convertBaseToBigint` (lines 337-346). -/
def convertBaseToBigint (array : List ℤ) (base : ℤ) : ℤ :=
  (List.range array.length).foldl (fun bigint i => bigint + array.getD i 0 * base ^ i) 0

/-- The digit-emitting loop of `convertBigintToBase` (lines 359-370);
`quotient` stays nonnegative, so Python's floor `divmod` agrees with
`Int.ediv`/`Int.emod` here. -/
def cbbLoop (base MAX : ℤ) (is_negative : Bool) : ℤ → ℕ → List ℤ
  | _, 0 => []
  | q, k + 1 =>
      let r0 := q % base
      let q1 := q / base
      let q2 := if MAX < r0 then q1 + 1 else q1
      let r1 := if MAX < r0 then r0 - base else r0
      let r := if is_negative then -r1 else r1
      r :: cbbLoop base MAX is_negative q2 k

/-- Function `convertBigintToBase` (lines 348-372). -/
def convertBigintToBase (bigInt : ℤ) (base : ℤ) (length : ℕ) : List ℤ :=
  let is_negative := decide (bigInt < 0)
  let quotient := |bigInt|
  let MAX := if is_negative then base / 2 else (base - 1) / 2
  cbbLoop base MAX is_negative quotient length

/-- Function `convertToTrits1` (lines 63-66). -/
def convertToTrits1 (bytes_k : List ℤ) : List ℤ :=
  convertBigintToBase (convertBytesToBigInt bytes_k) 3 243

/-- Function `convertToBytes1` (lines 202-207). -/
def convertToBytes1 (trits : List ℤ) : List ℤ :=
  convertBigintToBytes (convertBaseToBigint trits 3)

/-! ### convertToBytes2 (lines 209-291) -/

/-- Lines 238-251: `for j in range(48)` multiplying the base-256 accumulator
by 3 with carries; the loop breaks once `j > check_index`, and `check_index`
is raised to `j + 1` whenever position `j` overflows.  The first argument is
the fuel `48 - j` remaining in the `range(48)` loop.  Python's `//` and `%`
by `-256` are floor operations, hence `Int.fdiv`/`Int.fmod`. -/
def mulLoop : ℕ → ℕ → ℕ → ℤ → List ℤ → ℕ × List ℤ
  | 0, _, ci, _, out => (ci, out)
  | fuel + 1, j, ci, carry, out =>
      if ci < j then (ci, out)
      else
        let value := out.getD j 0 * 3 + carry
        if 255 < value then
          mulLoop fuel (j + 1) (max ci (j + 1)) (value / 256) (out.set j (value % 256))
        else if value < -255 then
          mulLoop fuel (j + 1) (max ci (j + 1)) (value.fdiv (-256)) (out.set j (value.fmod (-256)))
        else
          mulLoop fuel (j + 1) ci 0 (out.set j value)

/-- Lines 254-262: `for j in range(check_index)` pushing a trailing
`+1` carry (digit 256) or `-1` borrow up the accumulator, stopping at the
first position where neither case applies.  The first argument is the
remaining fuel `check_index - j`. -/
def fixLoop (trit : ℤ) : ℕ → ℕ → List ℤ → List ℤ
  | 0, _, out => out
  | fuel + 1, j, out =>
      if trit = 1 ∧ out.getD j 0 = 256 then
        fixLoop trit fuel (j + 1) ((out.set j 0).set (j + 1) (out.getD (j + 1) 0 + 1))
      else if trit = -1 ∧ out.getD j 0 = -1 then
        fixLoop trit fuel (j + 1) ((out.set j 255).set (j + 1) (out.getD (j + 1) 0 - 1))
      else out

/-- One iteration of the `for i in range(len_trits)` loop of lines 231-262,
acting on the state `(sign, check_index, output)`.  Leading zero trits are
skipped while `sign` is still 0; the first nonzero trit fixes `sign` and is
processed in the same iteration. -/
def cb2Step (st : ℤ × ℕ × List ℤ) (t : ℤ) : ℤ × ℕ × List ℤ :=
  let sign := st.1
  let ci := st.2.1
  let out := st.2.2
  if sign = 0 ∧ t = 0 then st
  else
    let sign1 := if sign = 0 then t else sign
    let tr := t * sign1
    let m := mulLoop 48 0 ci 0 out
    let out2 := m.2.set 0 (m.2.getD 0 0 + tr)
    let out3 := fixLoop tr m.1 0 out2
    (sign1, m.1, out3)

/-- Function `convertToBytes2` (lines 209-291): the input trits are
reversed (line 219), accumulated in a little-endian base-256 array, then
written out big-endian as signed bytes (lines 266-272) with a
two's-complement finalisation for negative numbers (lines 274-289). -/
def convertToBytes2 (trits_ : List ℤ) : List ℤ :=
  let st := trits_.reverse.foldl cb2Step (0, 0, List.replicate 48 0)
  let sign := st.1
  let output := st.2.2
  let bytesArray := (output.map (fun x => if x ≤ 127 then x else x - 256)).reverse
  if sign < 0 then
    (add1LE ((bytesArray.map (fun x => -x - 1)).reverse)).reverse
  else bytesArray

/-- Function `convertToBytes` (lines 199-200). -/
def convertToBytes (trits : List ℤ) : List ℤ := convertToBytes2 trits

/-! ### Concrete buffers used as inputs below -/

/-- The 243-trit balanced-ternary representation of 256
(`256 = 1 + 3 + 9 + 243`), least significant trit first. -/
def trits256 : List ℤ := [1, 1, 1, 0, 0, 1] ++ List.replicate 237 0

/-- The 48-byte big-endian buffer holding the value 256. -/
def bytes256 : List ℤ := List.replicate 46 0 ++ [1, 0]

/-! ### Basic facts about `tval` -/

theorem tval_nil : tval [] = 0 := rfl

theorem tval_cons (x : ℤ) (xs : List ℤ) : tval (x :: xs) = x + 3 * tval xs := rfl

theorem tval_append (xs ys : List ℤ) :
    tval (xs ++ ys) = tval xs + 3 ^ xs.length * tval ys := by
  induction xs with
  | nil => simp [tval]
  | cons x xs ih =>
      simp only [List.cons_append, tval_cons, ih, List.length_cons, pow_succ]
      ring

theorem tval_map_neg (l : List ℤ) : tval (l.map fun x => -x) = -tval l := by
  induction l with
  | nil => simp [tval]
  | cons x xs ih =>
      simp only [List.map_cons, tval_cons, ih]
      ring

theorem tritList_map_neg {l : List ℤ} (h : TritList l) :
    TritList (l.map fun x => -x) := by
  intro y hy
  obtain ⟨x, hx, rfl⟩ := List.mem_map.mp hy
  obtain ⟨h1, h2⟩ := h x hx
  omega

theorem tval_bound {l : List ℤ} (h : TritList l) :
    2 * |tval l| ≤ 3 ^ l.length - 1 := by
  induction l with
  | nil => simp [tval]
  | cons x xs ih =>
      obtain ⟨h1, h2⟩ := h x (List.mem_cons_self x xs)
      have ih2 := ih (fun y hy => h y (List.mem_cons_of_mem x hy))
      have hx : |x| ≤ 1 := abs_le.mpr ⟨h1, h2⟩
      have h3 : |x + 3 * tval xs| ≤ |x| + 3 * |tval xs| := by
        calc |x + 3 * tval xs| ≤ |x| + |3 * tval xs| := abs_add _ _
          _ = |x| + 3 * |tval xs| := by rw [abs_mul]; norm_num
      rw [tval_cons, List.length_cons, pow_succ]
      linarith

theorem tval_eq_zero_entries {l : List ℤ} (h : TritList l) (h0 : tval l = 0) :
    ∀ x ∈ l, x = 0 := by
  induction l with
  | nil => simp
  | cons x xs ih =>
      obtain ⟨h1, h2⟩ := h x (List.mem_cons_self x xs)
      rw [tval_cons] at h0
      have hx : x = 0 ∧ tval xs = 0 := by omega
      intro y hy
      rcases List.mem_cons.mp hy with rfl | hy2
      · exact hx.1
      · exact ih (fun z hz => h z (List.mem_cons_of_mem x hz)) hx.2 y hy2

theorem tval_unique :
    ∀ {a b : List ℤ}, TritList a → TritList b → a.length = b.length →
      tval a = tval b → a = b := by
  intro a
  induction a with
  | nil =>
      intro b _ _ hlen _
      cases b with
      | nil => rfl
      | cons y ys => simp at hlen
  | cons x xs ih =>
      intro b ha hb hlen hval
      cases b with
      | nil => simp at hlen
      | cons y ys =>
          obtain ⟨hx1, hx2⟩ := ha x (List.mem_cons_self x xs)
          obtain ⟨hy1, hy2⟩ := hb y (List.mem_cons_self y ys)
          rw [tval_cons, tval_cons] at hval
          have hxy : x = y ∧ tval xs = tval ys := by omega
          have htail : xs = ys :=
            ih (fun z hz => ha z (List.mem_cons_of_mem x hz))
              (fun z hz => hb z (List.mem_cons_of_mem y hz))
              (by simpa using hlen) hxy.2
          rw [hxy.1, htail]

theorem tval_take_add_drop (l : List ℤ) (n : ℕ) (h : n ≤ l.length) :
    tval l = tval (l.take n) + 3 ^ n * tval (l.drop n) := by
  conv_lhs => rw [← List.take_append_drop n l]
  rw [tval_append, List.length_take, min_eq_left h]

theorem carry_zero {l : List ℤ} {c v : ℤ} (hd : TritList l)
    (h : tval l + c * 3 ^ l.length = v) (hb : 2 * |v| + 1 ≤ 3 ^ l.length) :
    c = 0 ∧ tval l = v := by
  have h1 := tval_bound hd
  have hc : c = 0 := by
    by_contra hc
    have h3 : 1 ≤ |c| := Int.one_le_abs hc
    have hpow : (0 : ℤ) < 3 ^ l.length := by positivity
    have h4 : (3 : ℤ) ^ l.length ≤ |c| * 3 ^ l.length :=
      le_mul_of_one_le_left (le_of_lt hpow) h3
    have h6 : c * 3 ^ l.length = v - tval l := by linarith
    have h5 : |c| * 3 ^ l.length = |v - tval l| := by
      rw [← abs_of_nonneg (le_of_lt hpow), ← abs_mul, h6]
    have h7 : |v - tval l| ≤ |v| + |tval l| := abs_sub _ _
    linarith
  refine ⟨hc, ?_⟩
  rw [hc] at h
  simpa using h

theorem tval_eq_sum (l : List ℤ) (n : ℕ) (h : l.length ≤ n) :
    tval l = ∑ i ∈ Finset.range n, l.getD i 0 * 3 ^ i := by
  induction l generalizing n with
  | nil =>
      simp [tval]
  | cons x xs ih =>
      cases n with
      | zero => simp at h
      | succ m =>
          rw [Finset.sum_range_succ']
          simp only [List.getD_cons_succ, List.getD_cons_zero, pow_zero, mul_one]
          have hsum : ∑ k ∈ Finset.range m, xs.getD k 0 * 3 ^ (k + 1)
              = 3 * ∑ k ∈ Finset.range m, xs.getD k 0 * 3 ^ k := by
            rw [Finset.mul_sum]
            refine Finset.sum_congr rfl (fun k _ => ?_)
            ring
          rw [tval_cons, hsum, ← ih m (by simpa using h)]
          ring

theorem tval_getD_zero_of_high {o : List ℤ} (hd : TritList o)
    (hlen : o.length = 243) (hb : 2 * |tval o| + 1 ≤ 3 ^ 238) :
    ∀ j, 238 ≤ j → o.getD j 0 = 0 := by
  have hsplit := tval_take_add_drop o 238 (by omega)
  have hdt : TritList (o.take 238) := fun x hx => hd x (List.mem_of_mem_take hx)
  have hdd : TritList (o.drop 238) := fun x hx => hd x (List.mem_of_mem_drop hx)
  have hbt := tval_bound hdt
  have hlt : (o.take 238).length = 238 := by
    rw [List.length_take]; omega
  rw [hlt] at hbt
  have hz : tval (o.drop 238) = 0 := by
    by_contra h0
    have h1 : 1 ≤ |tval (o.drop 238)| := Int.one_le_abs h0
    have hpow : (0 : ℤ) < 3 ^ 238 := by positivity
    have h2 : (3 : ℤ) ^ 238 ≤ 3 ^ 238 * |tval (o.drop 238)| :=
      le_mul_of_one_le_right (le_of_lt hpow) h1
    have h3 : (3 : ℤ) ^ 238 * tval (o.drop 238) = tval o - tval (o.take 238) := by
      linarith
    have h4 : |(3 : ℤ) ^ 238 * tval (o.drop 238)| ≤ |tval o| + |tval (o.take 238)| := by
      rw [h3]; exact abs_sub _ _
    rw [abs_mul, abs_of_nonneg (le_of_lt hpow)] at h4
    linarith
  have hall := tval_eq_zero_entries hdd hz
  intro j hj
  by_cases hjl : j < 243
  · have hget : o.getD j 0 = (o.drop 238).getD (j - 238) 0 := by
      rw [List.getD_eq_getElem?_getD, List.getD_eq_getElem?_getD, List.getElem?_drop]
      have harith : 238 + (j - 238) = j := by omega
      rw [harith]
    rw [hget]
    cases h : (o.drop 238)[j - 238]? with
    | none => simp [List.getD_eq_getElem?_getD, h]
    | some y =>
        have hy : y ∈ o.drop 238 := List.getElem?_mem h
        simp [List.getD_eq_getElem?_getD, h, hall y hy]
  · have : o.length ≤ j := by omega
    simp [List.getD_eq_getElem?_getD, List.getElem?_eq_none this]

/-! ### Basic facts about byte values -/

theorem byteU_nonneg (x : ℤ) : 0 ≤ byteU x := by
  unfold byteU; omega

theorem byteU_lt (x : ℤ) : byteU x < 256 := by
  unfold byteU; omega

theorem byteU_byteU (x : ℤ) : byteU (byteU x) = byteU x := by
  unfold byteU; omega

theorem uvalLE_nonneg (l : List ℤ) : 0 ≤ uvalLE l := by
  induction l with
  | nil => simp [uvalLE]
  | cons x xs ih =>
      have := byteU_nonneg x
      simp only [uvalLE]
      linarith

theorem uvalLE_lt (l : List ℤ) : uvalLE l < 256 ^ l.length := by
  induction l with
  | nil => simp [uvalLE]
  | cons x xs ih =>
      have h1 := byteU_lt x
      simp only [uvalLE, List.length_cons, pow_succ]
      linarith

theorem uvalLE_append (xs ys : List ℤ) :
    uvalLE (xs ++ ys) = uvalLE xs + 256 ^ xs.length * uvalLE ys := by
  induction xs with
  | nil => simp [uvalLE]
  | cons x xs ih =>
      simp only [List.cons_append, uvalLE, List.append_eq, ih, List.length_cons, pow_succ]
      ring

theorem uval_cons (x : ℤ) (xs : List ℤ) :
    uval (x :: xs) = byteU x * 256 ^ xs.length + uval xs := by
  unfold uval
  rw [List.reverse_cons, uvalLE_append]
  simp [uvalLE, List.length_reverse]
  ring

theorem uval_nonneg (b : List ℤ) : 0 ≤ uval b := uvalLE_nonneg _

theorem uval_lt (b : List ℤ) : uval b < 256 ^ b.length := by
  have := uvalLE_lt b.reverse
  rwa [List.length_reverse] at this

theorem rawLE_append (xs ys : List ℤ) :
    rawLE (xs ++ ys) = rawLE xs + 256 ^ xs.length * rawLE ys := by
  induction xs with
  | nil => simp [rawLE]
  | cons x xs ih =>
      simp only [List.cons_append, rawLE, List.append_eq, ih, List.length_cons, pow_succ]
      ring

theorem rawLE_map_byteU (l : List ℤ) : rawLE (l.map byteU) = uvalLE l := by
  induction l with
  | nil => rfl
  | cons x xs ih => simp [rawLE, uvalLE, ih]

theorem foldl_horner (l : List ℤ) (a : ℤ) :
    l.foldl (fun acc x => 256 * acc + x) a = a * 256 ^ l.length + rawLE l.reverse := by
  induction l generalizing a with
  | nil => simp [rawLE]
  | cons x xs ih =>
      simp only [List.foldl_cons, List.reverse_cons, ih, rawLE_append,
        List.length_reverse, List.length_cons, pow_succ]
      simp [rawLE]
      ring

theorem sub1LE_cons_zero {x : ℤ} (xs : List ℤ) (h : byteU x = 0) :
    sub1LE (x :: xs) = -1 :: sub1LE xs := by
  simp only [sub1LE]
  split_ifs with h1 h2 <;> first
    | rfl
    | (exfalso; omega)
    | (refine congrArg (fun z => z :: sub1LE xs) ?_; omega)

theorem sub1LE_cons_pos {x : ℤ} (xs : List ℤ) (h : byteU x ≠ 0) :
    sub1LE (x :: xs)
      = (if byteU x - 1 ≤ 127 then byteU x - 1 else byteU x - 1 - 256) :: xs := by
  have hb0 := byteU_nonneg x
  have hb1 := byteU_lt x
  simp only [sub1LE]
  split_ifs with h1 h2 h3 <;> first
    | rfl
    | (exfalso; omega)

theorem sub1LE_length (l : List ℤ) : (sub1LE l).length = l.length := by
  induction l with
  | nil => rfl
  | cons x xs ih =>
      by_cases h0 : byteU x = 0
      · rw [sub1LE_cons_zero xs h0]
        simpa using ih
      · rw [sub1LE_cons_pos xs h0]
        simp

theorem sub1LE_val {l : List ℤ} (h : 1 ≤ uvalLE l) :
    uvalLE (sub1LE l) = uvalLE l - 1 := by
  induction l with
  | nil => simp [uvalLE] at h
  | cons x xs ih =>
      have hnn := uvalLE_nonneg xs
      have hb0 := byteU_nonneg x
      have hb1 := byteU_lt x
      by_cases h0 : byteU x = 0
      · have hxs : 1 ≤ uvalLE xs := by
          simp only [uvalLE, h0] at h
          omega
        rw [sub1LE_cons_zero xs h0]
        simp only [uvalLE, ih hxs, h0]
        have hm1 : byteU (-1) = 255 := by unfold byteU; omega
        rw [hm1]
        ring
      · rw [sub1LE_cons_pos xs h0]
        have hbs : byteU (if byteU x - 1 ≤ 127 then byteU x - 1 else byteU x - 1 - 256)
            = byteU x - 1 := by
          unfold byteU at h0 ⊢
          split_ifs <;> omega
        simp only [uvalLE, hbs]
        ring

theorem sub1LE_bytes {l : List ℤ} (h : ByteList l) : ByteList (sub1LE l) := by
  induction l with
  | nil => exact h
  | cons x xs ih =>
      have hb0 := byteU_nonneg x
      have hb1 := byteU_lt x
      by_cases h0 : byteU x = 0
      · rw [sub1LE_cons_zero xs h0]
        intro y hy
        rcases List.mem_cons.mp hy with rfl | hy2
        · omega
        · exact ih (fun z hz => h z (List.mem_cons_of_mem x hz)) y hy2
      · rw [sub1LE_cons_pos xs h0]
        intro y hy
        rcases List.mem_cons.mp hy with rfl | hy2
        · split_ifs <;> omega
        · exact h y (List.mem_cons_of_mem x hy2)

theorem add1LE_cons_wrap {x : ℤ} (xs : List ℤ) (h : byteU x = 255) :
    add1LE (x :: xs) = 0 :: add1LE xs := by
  simp only [add1LE]
  split_ifs with h1 h2 <;> first
    | rfl
    | (exfalso; omega)
    | (refine congrArg (fun z => z :: add1LE xs) ?_; omega)

theorem add1LE_cons_stop {x : ℤ} (xs : List ℤ) (h : byteU x ≠ 255) :
    add1LE (x :: xs)
      = (if byteU x + 1 ≤ 127 then byteU x + 1 else byteU x + 1 - 256) :: xs := by
  have hb0 := byteU_nonneg x
  have hb1 := byteU_lt x
  simp only [add1LE]
  split_ifs with h1 h2 h3 <;> first
    | rfl
    | (exfalso; omega)

theorem add1LE_length (l : List ℤ) : (add1LE l).length = l.length := by
  induction l with
  | nil => rfl
  | cons x xs ih =>
      by_cases h0 : byteU x = 255
      · rw [add1LE_cons_wrap xs h0]
        simpa using ih
      · rw [add1LE_cons_stop xs h0]
        simp

theorem add1LE_val (l : List ℤ) :
    uvalLE (add1LE l) = (uvalLE l + 1) % 256 ^ l.length := by
  induction l with
  | nil => simp [uvalLE, add1LE]
  | cons x xs ih =>
      have hnn := uvalLE_nonneg xs
      have hlt := uvalLE_lt xs
      have hb0 := byteU_nonneg x
      have hb1 := byteU_lt x
      by_cases h0 : byteU x = 255
      · rw [add1LE_cons_wrap xs h0]
        simp only [uvalLE, ih, h0]
        have hz : byteU 0 = 0 := by unfold byteU; omega
        rw [hz, List.length_cons, pow_succ']
        have hm : (255 + 256 * uvalLE xs + 1) = 256 * (uvalLE xs + 1) := by ring
        rw [hm, Int.mul_emod_mul_of_pos _ _ (by norm_num : (0:ℤ) < 256)]
        ring
      · rw [add1LE_cons_stop xs h0]
        have hba : byteU (if byteU x + 1 ≤ 127 then byteU x + 1 else byteU x + 1 - 256)
            = byteU x + 1 := by
          unfold byteU at h0 ⊢
          split_ifs <;> omega
        simp only [uvalLE, hba, List.length_cons, pow_succ]
        have hlhs : byteU x + 1 + 256 * uvalLE xs = byteU x + 256 * uvalLE xs + 1 := by ring
        have h255 : byteU x < 255 := lt_of_le_of_ne (by linarith) h0
        rw [hlhs, Int.emod_eq_of_lt (by linarith) (by linarith)]

theorem add1LE_bytes {l : List ℤ} (h : ByteList l) : ByteList (add1LE l) := by
  induction l with
  | nil => exact h
  | cons x xs ih =>
      have hb0 := byteU_nonneg x
      have hb1 := byteU_lt x
      by_cases h0 : byteU x = 255
      · rw [add1LE_cons_wrap xs h0]
        intro y hy
        rcases List.mem_cons.mp hy with rfl | hy2
        · omega
        · exact ih (fun z hz => h z (List.mem_cons_of_mem x hz)) y hy2
      · rw [add1LE_cons_stop xs h0]
        intro y hy
        rcases List.mem_cons.mp hy with rfl | hy2
        · split_ifs <;> omega
        · exact h y (List.mem_cons_of_mem x hy2)

theorem byteU_compl (x : ℤ) : byteU (-x - 1) = 255 - byteU x := by
  unfold byteU; omega

theorem compl_val (l : List ℤ) :
    uvalLE (l.map fun x => -x - 1) = 256 ^ l.length - 1 - uvalLE l := by
  induction l with
  | nil => simp [uvalLE]
  | cons x xs ih =>
      simp only [List.map_cons, uvalLE, ih, byteU_compl, List.length_cons, pow_succ]
      ring

theorem compl_bytes {l : List ℤ} (h : ByteList l) :
    ByteList (l.map fun x => -x - 1) := by
  intro y hy
  obtain ⟨x, hx, rfl⟩ := List.mem_map.mp hy
  obtain ⟨h1, h2⟩ := h x hx
  omega

/-! ### Correctness of the digit loops of `bytes_to_trits` -/

theorem normalizeAux_length (q : ℤ) (l : List ℤ) :
    (normalizeAux q l).1.length = l.length := by
  induction l generalizing q with
  | nil => rfl
  | cons x xs ih =>
      simp only [normalizeAux]
      split_ifs <;> simp [ih]

theorem normalizeAux_digits (q : ℤ) (l : List ℤ) : TritList (normalizeAux q l).1 := by
  induction l generalizing q with
  | nil => intro y hy; simp [normalizeAux] at hy
  | cons x xs ih =>
      intro y hy
      simp only [normalizeAux] at hy
      split_ifs at hy with h1 h2
      · rcases List.mem_cons.mp hy with rfl | hy2
        · omega
        · exact ih _ y hy2
      · rcases List.mem_cons.mp hy with rfl | hy2
        · omega
        · exact ih _ y hy2
      · rcases List.mem_cons.mp hy with rfl | hy2
        · omega
        · exact ih _ y hy2

theorem normalizeAux_val (q : ℤ) (l : List ℤ) :
    tval (normalizeAux q l).1 + (normalizeAux q l).2 * 3 ^ l.length = tval l + q := by
  induction l generalizing q with
  | nil => simp [normalizeAux, tval]
  | cons x xs ih =>
      simp only [normalizeAux]
      split_ifs with h1 h2
      · have ih1 := ih ((x + q) / 3 + 1)
        have hdm : 3 * ((x + q) / 3) + (x + q) % 3 = x + q := by omega
        have hr2 : (x + q) % 3 = 2 := by omega
        simp only [tval_cons, List.length_cons, pow_succ]
        nlinarith [ih1]
      · have ih1 := ih ((x + q) / 3)
        have hdm : 3 * ((x + q) / 3) + (x + q) % 3 = x + q := by omega
        simp only [tval_cons, List.length_cons, pow_succ]
        nlinarith [ih1]
      · have ih1 := ih 0
        simp only [tval_cons, List.length_cons, pow_succ]
        nlinarith [ih1]

theorem addByteAux_length (b : ℤ) (l : List ℤ) :
    (addByteAux b l).1.length = l.length := by
  induction l generalizing b with
  | nil => rfl
  | cons x xs ih =>
      simp only [addByteAux]
      split_ifs <;> simp [ih]

theorem addByteAux_digits {l : List ℤ} (hd : TritList l) (b : ℤ) (hb : 0 ≤ b) :
    TritList (addByteAux b l).1 := by
  induction l generalizing b with
  | nil => intro y hy; simp [addByteAux] at hy
  | cons x xs ih =>
      have hdt : TritList xs := fun z hz => hd z (List.mem_cons_of_mem x hz)
      obtain ⟨hx1, hx2⟩ := hd x (List.mem_cons_self x xs)
      intro y hy
      simp only [addByteAux] at hy
      split_ifs at hy with h1 h2
      · exact hd y hy
      · rcases List.mem_cons.mp hy with rfl | hy2
        · have : 0 ≤ b % 3 ∧ b % 3 < 3 := by omega
          omega
        · exact ih hdt (b / 3 + 1) (by omega) y hy2
      · rcases List.mem_cons.mp hy with rfl | hy2
        · have : 0 ≤ b % 3 ∧ b % 3 < 3 := by omega
          omega
        · exact ih hdt (b / 3) (by omega) y hy2

theorem addByteAux_val (l : List ℤ) (b : ℤ) (hb : 0 ≤ b) :
    tval (addByteAux b l).1 + (addByteAux b l).2 * 3 ^ l.length = tval l + b := by
  induction l generalizing b with
  | nil => simp [addByteAux, tval]
  | cons x xs ih =>
      simp only [addByteAux]
      split_ifs with h1 h2
      · have hz : b = 0 := by omega
        simp [hz]
      · have ih1 := ih (b / 3 + 1) (by omega)
        have hdm : 3 * (b / 3) + b % 3 = b := by omega
        simp only [tval_cons, List.length_cons, pow_succ]
        nlinarith [ih1]
      · have ih1 := ih (b / 3) (by omega)
        have hdm : 3 * (b / 3) + b % 3 = b := by omega
        simp only [tval_cons, List.length_cons, pow_succ]
        nlinarith [ih1]

theorem mul256_length (o : List ℤ) : (mul256 o).length = 243 := by
  simp [mul256]

theorem getD_mul256 (o : List ℤ) {i : ℕ} (h : i < 243) :
    (mul256 o).getD i 0 = shiftD o i 0 + shiftD o i 1 + shiftD o i 2 + shiftD o i 5 := by
  unfold mul256
  rw [List.getD_eq_getElem?_getD, List.getElem?_map, List.getElem?_range h]
  rfl

theorem shift_sum {o : List ℤ} (hlen : o.length = 243)
    (hhi : ∀ j, 238 ≤ j → o.getD j 0 = 0) (k : ℕ) (hk : k ≤ 5) :
    ∑ i ∈ Finset.range 243, shiftD o i k * 3 ^ i = 3 ^ k * tval o := by
  have h1 : ∑ i ∈ Finset.range 243, shiftD o i k * 3 ^ i
      = ∑ i ∈ Finset.Ico k 243, shiftD o i k * 3 ^ i := by
    rw [Finset.range_eq_Ico,
      ← Finset.sum_Ico_consecutive _ (Nat.zero_le k) (by omega : k ≤ 243)]
    have hz : ∑ i ∈ Finset.Ico 0 k, shiftD o i k * 3 ^ i = 0 := by
      apply Finset.sum_eq_zero
      intro i hi
      have hik : i < k := (Finset.mem_Ico.mp hi).2
      unfold shiftD
      rw [if_neg (by omega)]
      ring
    rw [hz, zero_add]
  rw [h1, Finset.sum_Ico_eq_sum_range]
  have h2 : ∀ i ∈ Finset.range (243 - k), shiftD o (k + i) k * 3 ^ (k + i)
      = 3 ^ k * (o.getD i 0 * 3 ^ i) := by
    intro i hi
    unfold shiftD
    rw [if_pos (by omega)]
    have harith : k + i - k = i := by omega
    rw [harith, pow_add]
    ring
  rw [Finset.sum_congr rfl h2, ← Finset.mul_sum]
  congr 1
  rw [tval_eq_sum o 243 (by omega)]
  apply Finset.sum_subset
  · intro i hi
    exact Finset.mem_range.mpr (by have := Finset.mem_range.mp hi; omega)
  · intro i hi hni
    have h238 : 238 ≤ i := by
      have h3 := Finset.mem_range.mp hi
      have h4 : ¬ i < 243 - k := fun hlt => hni (Finset.mem_range.mpr hlt)
      omega
    rw [hhi i h238]
    ring

theorem tval_mul256 {o : List ℤ} (hlen : o.length = 243)
    (hhi : ∀ j, 238 ≤ j → o.getD j 0 = 0) : tval (mul256 o) = 256 * tval o := by
  rw [tval_eq_sum (mul256 o) 243 (by rw [mul256_length])]
  have hsum : ∀ i ∈ Finset.range 243, (mul256 o).getD i 0 * 3 ^ i
      = shiftD o i 0 * 3 ^ i + shiftD o i 1 * 3 ^ i
        + shiftD o i 2 * 3 ^ i + shiftD o i 5 * 3 ^ i := by
    intro i hi
    rw [getD_mul256 o (Finset.mem_range.mp hi)]
    ring
  rw [Finset.sum_congr rfl hsum]
  rw [Finset.sum_add_distrib, Finset.sum_add_distrib, Finset.sum_add_distrib]
  rw [shift_sum hlen hhi 0 (by omega), shift_sum hlen hhi 1 (by omega),
    shift_sum hlen hhi 2 (by omega), shift_sum hlen hhi 5 (by omega)]
  norm_num
  ring

theorem btStep_spec {o : List ℤ} {x : ℤ} (hlen : o.length = 243) (hd : TritList o)
    (h0 : 0 ≤ tval o) (hx0 : 0 ≤ x) (hx1 : x ≤ 255)
    (hb : (tval o + 1) * 256 ≤ 2 ^ 384) :
    (btStep o x).length = 243 ∧ TritList (btStep o x) ∧ 0 ≤ tval (btStep o x) ∧
      tval (btStep o x) = 256 * tval o + x := by
  have hv1 : tval o + 1 ≤ 2 ^ 376 := by nlinarith
  have hF1 : (2 : ℤ) ^ 377 ≤ 3 ^ 238 := by norm_num
  have hF2 : (2 : ℤ) ^ 385 ≤ 3 ^ 243 := by norm_num
  have hE1 : (2 : ℤ) ^ 377 = 2 * 2 ^ 376 := by norm_num
  have hE2 : (2 : ℤ) ^ 385 = 512 * 2 ^ 376 := by norm_num
  have hhi : ∀ j, 238 ≤ j → o.getD j 0 = 0 := by
    apply tval_getD_zero_of_high hd hlen
    rw [abs_of_nonneg h0]
    linarith
  have hmul := tval_mul256 hlen hhi
  have hnd : TritList (normalizeAux 0 (mul256 o)).1 := normalizeAux_digits 0 (mul256 o)
  have hnlen : (normalizeAux 0 (mul256 o)).1.length = 243 := by
    rw [normalizeAux_length, mul256_length]
  have hnval0 := normalizeAux_val 0 (mul256 o)
  rw [mul256_length, hmul, add_zero] at hnval0
  have hnval0' : tval (normalizeAux 0 (mul256 o)).1
      + (normalizeAux 0 (mul256 o)).2 * 3 ^ (normalizeAux 0 (mul256 o)).1.length
      = 256 * tval o := by
    rw [hnlen]; exact hnval0
  have hncz := carry_zero hnd hnval0' (by
    rw [hnlen, abs_of_nonneg (by linarith : (0:ℤ) ≤ 256 * tval o)]
    linarith)
  obtain ⟨-, hnval⟩ := hncz
  have hxeq : (if x < 0 then -x else x) = x := if_neg (by omega)
  have halen : (btStep o x).length = 243 := by
    unfold btStep
    rw [hxeq, addByteAux_length, hnlen]
  have had : TritList (btStep o x) := by
    unfold btStep
    rw [hxeq]
    exact addByteAux_digits hnd x hx0
  have haval0 := addByteAux_val (normalizeAux 0 (mul256 o)).1 x hx0
  rw [hnval, hnlen] at haval0
  have haval0' : tval (addByteAux x (normalizeAux 0 (mul256 o)).1).1
      + (addByteAux x (normalizeAux 0 (mul256 o)).1).2
        * 3 ^ (addByteAux x (normalizeAux 0 (mul256 o)).1).1.length = 256 * tval o + x := by
    rw [addByteAux_length, hnlen]
    exact haval0
  have hacz := carry_zero (by
      unfold btStep at had
      rw [hxeq] at had
      exact had)
    haval0' (by
      rw [addByteAux_length, hnlen,
        abs_of_nonneg (by linarith : (0:ℤ) ≤ 256 * tval o + x)]
      linarith)
  obtain ⟨-, haval⟩ := hacz
  refine ⟨halen, had, ?_, ?_⟩
  · unfold btStep
    rw [hxeq, haval]
    linarith
  · unfold btStep
    rw [hxeq, haval]

theorem tval_replicate_zero (n : ℕ) : tval (List.replicate n 0) = 0 := by
  induction n with
  | zero => rfl
  | succ m ih => simp [List.replicate_succ, tval_cons, ih]

theorem btLoop_spec (u : List ℤ) : ∀ (o : List ℤ), o.length = 243 → TritList o →
    0 ≤ tval o → (∀ x ∈ u, 0 ≤ x ∧ x ≤ 255) →
    (tval o + 1) * 256 ^ u.length ≤ 2 ^ 384 →
    (u.foldl btStep o).length = 243 ∧ TritList (u.foldl btStep o) ∧
      tval (u.foldl btStep o) = u.foldl (fun a x => 256 * a + x) (tval o) := by
  induction u with
  | nil =>
      intro o h1 h2 _ _ _
      exact ⟨h1, h2, rfl⟩
  | cons x us ih =>
      intro o hlen hd h0 hu hb
      obtain ⟨hx0, hx1⟩ := hu x (List.mem_cons_self x us)
      have hpow : (0 : ℤ) < 256 ^ us.length := by positivity
      have hlenu : (x :: us).length = us.length + 1 := rfl
      rw [hlenu] at hb
      have h256 : (256 : ℤ) ≤ 256 ^ (us.length + 1) := by
        calc (256 : ℤ) = 256 ^ 1 := (pow_one 256).symm
          _ ≤ 256 ^ (us.length + 1) := pow_le_pow_right₀ (by norm_num) (by omega)
      have hb1 : (tval o + 1) * 256 ≤ 2 ^ 384 :=
        le_trans (mul_le_mul_of_nonneg_left h256 (by omega)) hb
      obtain ⟨hl2, hd2, h02, hv2⟩ := btStep_spec hlen hd h0 hx0 hx1 hb1
      have hbnext : (tval (btStep o x) + 1) * 256 ^ us.length ≤ 2 ^ 384 := by
        rw [hv2]
        have hle : 256 * tval o + x + 1 ≤ (tval o + 1) * 256 := by nlinarith
        calc (256 * tval o + x + 1) * 256 ^ us.length
            ≤ ((tval o + 1) * 256) * 256 ^ us.length :=
              mul_le_mul_of_nonneg_right hle (le_of_lt hpow)
          _ = (tval o + 1) * 256 ^ (us.length + 1) := by
              rw [pow_succ]; ring
          _ ≤ 2 ^ 384 := hb
      have ihr := ih (btStep o x) hl2 hd2 h02
        (fun y hy => hu y (List.mem_cons_of_mem x hy)) hbnext
      refine ⟨?_, ?_, ?_⟩
      · simpa [List.foldl_cons] using ihr.1
      · simpa [List.foldl_cons] using ihr.2.1
      · simp only [List.foldl_cons]
        rw [ihr.2.2, hv2]

theorem bytes_to_trits_pos {b : List ℤ} (h : 0 ≤ b.headD 0) :
    bytes_to_trits b = (b.map byteU).foldl btStep (List.replicate 243 0) := by
  simp only [bytes_to_trits]
  rw [if_pos h, if_neg (show ¬(1 : ℤ) = -1 by norm_num),
    if_neg (show ¬(1 : ℤ) = -1 by norm_num)]

theorem bytes_to_trits_neg {b : List ℤ} (h : ¬ 0 ≤ b.headD 0) :
    bytes_to_trits b
      = ((((sub1 b).map (fun x => -x - 1)).map byteU).foldl btStep
          (List.replicate 243 0)).map (fun x => -x) := by
  unfold bytes_to_trits
  rw [if_neg h]
  norm_num

theorem replicate_tritList (n : ℕ) : TritList (List.replicate n (0 : ℤ)) := by
  intro x hx
  have := List.eq_of_mem_replicate hx
  omega

theorem loop_uval (arr : List ℤ) (hlen : arr.length = 48) :
    ((arr.map byteU).foldl btStep (List.replicate 243 0)).length = 243 ∧
      TritList ((arr.map byteU).foldl btStep (List.replicate 243 0)) ∧
      tval ((arr.map byteU).foldl btStep (List.replicate 243 0)) = uval arr := by
  have hrep : (List.replicate 243 (0 : ℤ)).length = 243 := by
    rw [List.length_replicate]
  have hval0 : tval (List.replicate 243 (0 : ℤ)) = 0 := tval_replicate_zero 243
  have hbound : (tval (List.replicate 243 (0 : ℤ)) + 1) * 256 ^ (arr.map byteU).length
      ≤ 2 ^ 384 := by
    rw [hval0, List.length_map, hlen]
    norm_num
  have hentries : ∀ x ∈ arr.map byteU, 0 ≤ x ∧ x ≤ 255 := by
    intro x hx
    obtain ⟨y, -, rfl⟩ := List.mem_map.mp hx
    have h1 := byteU_nonneg y
    have h2 := byteU_lt y
    omega
  obtain ⟨h1, h2, h3⟩ := btLoop_spec (arr.map byteU) (List.replicate 243 0) hrep
    (replicate_tritList 243) (by rw [hval0]) hentries hbound
  refine ⟨h1, h2, ?_⟩
  rw [h3, hval0, foldl_horner, ← List.map_reverse, rawLE_map_byteU]
  simp [uval]

theorem bytes_to_trits_spec {b : List ℤ} (hlen : b.length = 48) (hb : ByteList b) :
    (bytes_to_trits b).length = 243 ∧ TritList (bytes_to_trits b) ∧
      tval (bytes_to_trits b) = tcVal b := by
  by_cases hsig : 0 ≤ b.headD 0
  · rw [bytes_to_trits_pos hsig]
    obtain ⟨h1, h2, h3⟩ := loop_uval b hlen
    refine ⟨h1, h2, ?_⟩
    rw [h3]
    unfold tcVal
    rw [if_neg (by omega)]
    ring
  · -- negative leading byte
    obtain ⟨hd0, rest, rfl⟩ : ∃ hd0 rest, b = hd0 :: rest := by
      cases b with
      | nil => simp at hlen
      | cons y ys => exact ⟨y, ys, rfl⟩
    have hhd : hd0 < 0 := by
      simp only [List.headD_cons] at hsig
      omega
    have hhdr := hb hd0 (List.mem_cons_self hd0 rest)
    have hbu : 128 ≤ byteU hd0 := by
      unfold byteU
      omega
    have hrlen : rest.length = 47 := by
      simp at hlen
      omega
    have hu1 : 1 ≤ uval (hd0 :: rest) := by
      rw [uval_cons]
      have h1 := uval_nonneg rest
      have h2 : (1 : ℤ) ≤ 256 ^ rest.length := one_le_pow₀ (by norm_num)
      nlinarith
    rw [bytes_to_trits_neg hsig]
    have hsub1len : (sub1 (hd0 :: rest)).length = 48 := by
      unfold sub1
      rw [List.length_reverse, sub1LE_length, List.length_reverse]
      exact hlen
    have hsubval : uval (sub1 (hd0 :: rest)) = uval (hd0 :: rest) - 1 := by
      unfold sub1 uval
      rw [List.reverse_reverse]
      exact sub1LE_val (by exact hu1)
    have hcompval : uval ((sub1 (hd0 :: rest)).map (fun x => -x - 1))
        = 256 ^ 48 - uval (hd0 :: rest) := by
      unfold uval
      rw [← List.map_reverse, compl_val, List.length_reverse, hsub1len]
      have := hsubval
      unfold uval at this
      rw [this]
      ring
    have hcomplen : ((sub1 (hd0 :: rest)).map (fun x => -x - 1)).length = 48 := by
      rw [List.length_map]
      exact hsub1len
    obtain ⟨h1, h2, h3⟩ := loop_uval ((sub1 (hd0 :: rest)).map (fun x => -x - 1)) hcomplen
    refine ⟨?_, ?_, ?_⟩
    · rw [List.length_map]
      exact h1
    · exact tritList_map_neg h2
    · rw [tval_map_neg, h3, hcompval]
      unfold tcVal
      rw [if_pos (by simpa using hhd)]
      rw [hlen]
      ring

theorem bytes_to_trits_256 : bytes_to_trits bytes256 = trits256 := by
  obtain ⟨h1, h2, h3⟩ := bytes_to_trits_spec (b := bytes256) (by decide) (by decide)
  have htc : tcVal bytes256 = 256 := by decide
  exact tval_unique h2 (by decide) (by rw [h1]; decide) (by rw [h3, htc]; decide)

/-- C3: for every 48-byte buffer of signed bytes, `bytes_to_trits` returns
exactly 243 trits, each in `{-1, 0, 1}`, whose balanced-ternary value
`Σ trit[i] * 3^i` equals the value of the buffer read as a two's-complement
big-endian signed integer. -/
theorem claim3_bytes_to_trits_exact (b : List ℤ) (hlen : b.length = 48)
    (hb : ∀ x ∈ b, -128 ≤ x ∧ x ≤ 127) :
    (bytes_to_trits b).length = 243 ∧
      (∀ t ∈ bytes_to_trits b, t = -1 ∨ t = 0 ∨ t = 1) ∧
      tval (bytes_to_trits b) = tcVal b := by
  obtain ⟨h1, h2, h3⟩ := bytes_to_trits_spec hlen hb
  exact ⟨h1, fun t ht => by have := h2 t ht; omega, h3⟩

/-- Witness for C3 at the concrete buffer holding the value 256. -/
theorem claim3_witness :
    bytes256.length = 48 ∧ (∀ x ∈ bytes256, -128 ≤ x ∧ x ≤ 127) ∧
      ((bytes_to_trits bytes256).length = 243 ∧
        (∀ t ∈ bytes_to_trits bytes256, t = -1 ∨ t = 0 ∨ t = 1) ∧
        tval (bytes_to_trits bytes256) = tcVal bytes256) :=
  ⟨by decide, by decide, claim3_bytes_to_trits_exact bytes256 (by decide) (by decide)⟩

/-- C2 fails on the code: the byte buffer holding 256 converts to the
243-trit representation of 256, but `convertToBytes` maps those trits to the
all-zero buffer instead of the original buffer. -/
theorem claim2_roundtrip_failure :
    convertToBytes (convertToTrits bytes256) = List.replicate 48 0 ∧
      bytes256 ≠ List.replicate 48 0 := by
  constructor
  · show convertToBytes2 (bytes_to_trits bytes256) = List.replicate 48 0
    rw [bytes_to_trits_256]
    decide
  · decide

/-- C4 fails on the code: the 243 trits of 256 are a valid input (each in
`{-1, 0, 1}`), yet `convertToBytes2` returns the all-zero 48-byte buffer,
whose two's-complement value is 0, not 256. -/
theorem claim4_value_exactness_failure :
    trits256.length = 243 ∧ TritList trits256 ∧ tval trits256 = 256 ∧
      convertToBytes2 trits256 = List.replicate 48 0 ∧
      tcVal (List.replicate 48 0) = 0 :=
  ⟨by decide, by decide, by decide, by decide, by decide⟩

/-- C1 fails on the code: on the 243-trit representation of 256 the
reference path `convertToBytes1` returns the byte buffer for 256, while the
fast path `convertToBytes2` returns the all-zero buffer. -/
theorem claim1_dual_implementation_disagreement :
    convertToBytes1 trits256 = bytes256 ∧
      convertToBytes2 trits256 = List.replicate 48 0 ∧
      bytes256 ≠ List.replicate 48 0 :=
  ⟨by decide, by decide, by decide⟩

/-! ### The tryte table and the tryte codec (C5-C8) -/

theorem assoc_find_fst : ∀ {l : List (Char × List ℤ)} {c : Char} {v : List ℤ},
    (l.map Prod.fst).Nodup → (c, v) ∈ l →
      l.find? (fun p => p.1 == c) = some (c, v) := by
  intro l
  induction l with
  | nil => intro c v _ hm; simp at hm
  | cons p ps ih =>
      intro c v hnd hm
      have hnd2 : (p.1 :: ps.map Prod.fst).Nodup := by simpa using hnd
      by_cases hc : p.1 = c
      · have hp : p = (c, v) := by
          rcases List.mem_cons.mp hm with h | h
          · exact h.symm
          · exfalso
            have hnd1 : p.1 ∉ ps.map Prod.fst := (List.nodup_cons.mp hnd2).1
            exact hnd1 (by rw [hc]; exact List.mem_map.mpr ⟨(c, v), h, rfl⟩)
        rw [hp, List.find?_cons_of_pos _ (by simp)]
      · have hm2 : (c, v) ∈ ps := by
          rcases List.mem_cons.mp hm with h | h
          · exact absurd (by rw [← h]) hc
          · exact h
        rw [List.find?_cons_of_neg _ (by simpa using hc),
          ih (List.nodup_cons.mp hnd2).2 hm2]

theorem assoc_find_snd : ∀ {l : List (Char × List ℤ)} {c : Char} {v : List ℤ},
    (l.map Prod.snd).Nodup → (c, v) ∈ l →
      l.find? (fun p => p.2 == v) = some (c, v) := by
  intro l
  induction l with
  | nil => intro c v _ hm; simp at hm
  | cons p ps ih =>
      intro c v hnd hm
      have hnd2 : (p.2 :: ps.map Prod.snd).Nodup := by simpa using hnd
      by_cases hc : p.2 = v
      · have hp : p = (c, v) := by
          rcases List.mem_cons.mp hm with h | h
          · exact h.symm
          · exfalso
            have hnd1 : p.2 ∉ ps.map Prod.snd := (List.nodup_cons.mp hnd2).1
            exact hnd1 (by rw [hc]; exact List.mem_map.mpr ⟨(c, v), h, rfl⟩)
        rw [hp, List.find?_cons_of_pos _ (by simp)]
      · have hm2 : (c, v) ∈ ps := by
          rcases List.mem_cons.mp hm with h | h
          · exact absurd (by rw [← h]) hc
          · exact h
        rw [List.find?_cons_of_neg _ (by simpa using hc),
          ih (List.nodup_cons.mp hnd2).2 hm2]

theorem tryte_table_some_mem {c : Char} {v : List ℤ}
    (h : tryte_table c = some v) : (c, v) ∈ tryte_pairs := by
  unfold tryte_table at h
  cases hf : tryte_pairs.find? (fun p => p.1 == c) with
  | none => rw [hf] at h; simp at h
  | some p =>
      rw [hf] at h
      simp only [Option.map_some'] at h
      have hm := List.mem_of_find?_eq_some hf
      have hp1 : p.1 = c := by simpa using List.find?_some hf
      have hp : p = (c, v) := by
        cases p
        simp only [Option.some.injEq] at h
        simp_all
      rw [← hp]
      exact hm

theorem trit_table_some_mem {v : List ℤ} {c : Char}
    (h : trit_table v = some c) : (c, v) ∈ tryte_pairs := by
  unfold trit_table at h
  cases hf : tryte_pairs.find? (fun p => p.2 == v) with
  | none => rw [hf] at h; simp at h
  | some p =>
      rw [hf] at h
      simp only [Option.map_some'] at h
      have hm := List.mem_of_find?_eq_some hf
      have hp2 : p.2 = v := by simpa using List.find?_some hf
      have hp : p = (c, v) := by
        cases p
        simp only [Option.some.injEq] at h
        simp_all
      rw [← hp]
      exact hm

theorem tryte_keys_nodup : (tryte_pairs.map Prod.fst).Nodup := by decide

theorem tryte_values_nodup : (tryte_pairs.map Prod.snd).Nodup := by decide

theorem tryte_table_none {c : Char} (h : c ∉ tryte_alphabet) :
    tryte_table c = none := by
  cases ht : tryte_table c with
  | none => rfl
  | some v =>
      exfalso
      have hm := tryte_table_some_mem ht
      have hfst : ∀ p ∈ tryte_pairs, p.1 ∈ tryte_alphabet := by decide
      exact h (hfst (c, v) hm)

theorem trit_table_none_of_length {v : List ℤ} (h : ¬ v.length = 3) :
    trit_table v = none := by
  cases ht : trit_table v with
  | none => rfl
  | some c =>
      exfalso
      have hm := trit_table_some_mem ht
      have hsnd : ∀ p ∈ tryte_pairs, p.2.length = 3 := by decide
      exact h (hsnd (c, v) hm)

theorem mem_alphabet_table {c : Char} (h : c ∈ tryte_alphabet) :
    ∃ v, (c, v) ∈ tryte_pairs ∧ v.length = 3 ∧
      tryte_table c = some v ∧ trit_table v = some c := by
  have hmapeq : tryte_pairs.map Prod.fst = tryte_alphabet := by decide
  rw [← hmapeq] at h
  obtain ⟨p, hp, hpc⟩ := List.mem_map.mp h
  obtain ⟨c1, v⟩ := p
  simp only at hpc
  subst hpc
  refine ⟨v, hp, ?_, ?_, ?_⟩
  · have hsnd : ∀ p ∈ tryte_pairs, p.2.length = 3 := by decide
    exact hsnd _ hp
  · unfold tryte_table
    rw [assoc_find_fst tryte_keys_nodup hp]
    rfl
  · unfold trit_table
    rw [assoc_find_snd tryte_values_nodup hp]
    rfl

theorem chunk3_cons3 (a b c : ℤ) (r : List ℤ) :
    chunk3 (a :: b :: c :: r) = [a, b, c] :: chunk3 r := rfl

/-- C5: every string over the 27-character tryte alphabet maps through
`trytes_to_trits` to a trit list that `trits_to_trytes` maps back to the
original string. -/
theorem claim5_tryte_roundtrip (t : List Char) (h : ∀ c ∈ t, c ∈ tryte_alphabet) :
    ∃ tr, trytes_to_trits t = some tr ∧ trits_to_trytes tr = some t := by
  induction t with
  | nil => exact ⟨[], rfl, rfl⟩
  | cons c cs ih =>
      obtain ⟨v, hvm, hv3, hvt, hvc⟩ :=
        mem_alphabet_table (h c (List.mem_cons_self c cs))
      obtain ⟨tr, htr1, htr2⟩ := ih (fun d hd => h d (List.mem_cons_of_mem c hd))
      refine ⟨v ++ tr, ?_, ?_⟩
      · simp only [trytes_to_trits, hvt, htr1, Option.bind_eq_bind,
          Option.some_bind]
        rfl
      · obtain ⟨a, b2, c2, rfl⟩ := List.length_eq_three.mp hv3
        unfold trits_to_trytes at htr2 ⊢
        show lookup_chunks (chunk3 (a :: b2 :: c2 :: tr)) = some (c :: cs)
        rw [chunk3_cons3]
        simp only [lookup_chunks, hvc, htr2, Option.bind_eq_bind, Option.some_bind]
        rfl

/-- Witness for C5 at a concrete alphabet string. -/
theorem claim5_witness :
    (∀ c ∈ ['K', 'E', 'R', 'L'], c ∈ tryte_alphabet) ∧
      ∃ tr, trytes_to_trits ['K', 'E', 'R', 'L'] = some tr ∧
        trits_to_trytes tr = some ['K', 'E', 'R', 'L'] :=
  ⟨by decide, claim5_tryte_roundtrip ['K', 'E', 'R', 'L'] (by decide)⟩

/-- C6: an input string containing a character outside the 27-character
alphabet makes `trytes_to_trits` fail (the `KeyError` of the dictionary
lookup, modelled by `none`); no value is returned. -/
theorem claim6_invalid_alphabet (t : List Char) (c : Char) (hc : c ∈ t)
    (hbad : c ∉ tryte_alphabet) : trytes_to_trits t = none := by
  induction t with
  | nil => simp at hc
  | cons d ds ih =>
      rcases List.mem_cons.mp hc with rfl | h2
      · show (do
            let v ← tryte_table c
            let rest ← trytes_to_trits ds
            pure (v ++ rest)) = none
        rw [tryte_table_none hbad]
        rfl
      · show (do
            let v ← tryte_table d
            let rest ← trytes_to_trits ds
            pure (v ++ rest)) = none
        cases hd : tryte_table d with
        | none => rfl
        | some v =>
            rw [ih h2]
            rfl

/-- Witness for C6 at a concrete bad string. -/
theorem claim6_witness :
    'a' ∈ ['a', 'B'] ∧ 'a' ∉ tryte_alphabet ∧ trytes_to_trits ['a', 'B'] = none :=
  ⟨by decide, by decide, claim6_invalid_alphabet ['a', 'B'] 'a' (by decide) (by decide)⟩

/-- C7: a trit list whose length is not divisible by 3 makes
`trits_to_trytes` fail (the short final chunk misses the inverted table,
a `KeyError` modelled by `none`); no tryte string is returned. -/
theorem claim7_invalid_length :
    ∀ (trits : List ℤ), ¬ trits.length % 3 = 0 → trits_to_trytes trits = none
  | [], h => absurd (show ([] : List ℤ).length % 3 = 0 from rfl) h
  | [a], _ => by
      have h1 : trit_table [a] = none := trit_table_none_of_length (by simp)
      show (do
          let c ← trit_table [a]
          let cs ← lookup_chunks []
          pure (c :: cs)) = none
      rw [h1]
      rfl
  | [a, b], _ => by
      have h1 : trit_table [a, b] = none := trit_table_none_of_length (by simp)
      show (do
          let c ← trit_table [a, b]
          let cs ← lookup_chunks []
          pure (c :: cs)) = none
      rw [h1]
      rfl
  | a :: b :: c :: rest, h => by
      have h3 : ¬ rest.length % 3 = 0 := by
        simp only [List.length_cons] at h
        omega
      have hrec := claim7_invalid_length rest h3
      unfold trits_to_trytes at hrec ⊢
      rw [chunk3_cons3]
      show (do
          let d ← trit_table [a, b, c]
          let cs ← lookup_chunks (chunk3 rest)
          pure (d :: cs)) = none
      cases hd : trit_table [a, b, c] with
      | none => rfl
      | some d =>
          rw [hrec]
          rfl

/-- Witness for C7 at a concrete trit list of length 2. -/
theorem claim7_witness :
    ¬ ([1, 1] : List ℤ).length % 3 = 0 ∧ trits_to_trytes [1, 1] = none :=
  ⟨by decide, claim7_invalid_length [1, 1] (by decide)⟩

/-- C8: the tryte table is keyed by exactly the 27 alphabet characters, its
27 trit triples are distinct, the inverted `trit_table` is a two-sided
inverse of it, and the balanced-ternary value `t0 + 3*t1 + 9*t2` of the
triple at position `i` of the table lies in `[-13, 13]` and is congruent to
`i` modulo 27. -/
theorem claim8_table_correct :
    tryte_pairs.map Prod.fst = tryte_alphabet ∧
    (∀ c ∈ tryte_alphabet, ∃ v, tryte_table c = some v) ∧
    (∀ c, c ∉ tryte_alphabet → tryte_table c = none) ∧
    (tryte_pairs.map Prod.snd).Nodup ∧
    (∀ c v, tryte_table c = some v → trit_table v = some c) ∧
    (∀ v c, trit_table v = some c → tryte_table c = some v) ∧
    (∀ i, i < 27 →
      -13 ≤ tval (tryte_pairs.getD i default).2 ∧
      tval (tryte_pairs.getD i default).2 ≤ 13 ∧
      (tval (tryte_pairs.getD i default).2 - (i : ℤ)) % 27 = 0) := by
  refine ⟨by decide, ?_, ?_, tryte_values_nodup, ?_, ?_, by decide⟩
  · intro c hc
    obtain ⟨v, -, -, hvt, -⟩ := mem_alphabet_table hc
    exact ⟨v, hvt⟩
  · exact fun c => tryte_table_none
  · intro c v h
    unfold trit_table
    rw [assoc_find_snd tryte_values_nodup (tryte_table_some_mem h)]
    rfl
  · intro v c h
    unfold tryte_table
    rw [assoc_find_fst tryte_keys_nodup (trit_table_some_mem h)]
    rfl

/-- Witness for C8: the hypotheses of the conditional components discharged
at concrete inputs. -/
theorem claim8_witness :
    tryte_table 'a' = none ∧ trit_table [1, 1, 1] = some 'M' :=
  ⟨claim8_table_correct.2.2.1 'a' (by decide),
   claim8_table_correct.2.2.2.2.1 'M' [1, 1, 1] (by decide)⟩

/-! ### The arbitrary-precision reference conversion (C9) -/

theorem cbbLoop_neg (base MAX : ℤ) (q : ℤ) (k : ℕ) :
    cbbLoop base MAX true q k = (cbbLoop base MAX false q k).map (fun x => -x) := by
  induction k generalizing q with
  | zero => rfl
  | succ m ih => simp [cbbLoop, ih]

theorem cbbLoop_length (base MAX : ℤ) (neg : Bool) (q : ℤ) (k : ℕ) :
    (cbbLoop base MAX neg q k).length = k := by
  induction k generalizing q with
  | zero => rfl
  | succ m ih => simp [cbbLoop, ih]

theorem cbbLoop3_cons (q : ℤ) (m : ℕ) :
    cbbLoop 3 1 false q (m + 1)
      = (if 1 < q % 3 then q % 3 - 3 else q % 3)
        :: cbbLoop 3 1 false (if 1 < q % 3 then q / 3 + 1 else q / 3) m := by
  by_cases h : 1 < q % 3 <;> simp [cbbLoop, h]

theorem cbbLoop_digits (k : ℕ) : ∀ (q : ℤ), 0 ≤ q → TritList (cbbLoop 3 1 false q k) := by
  induction k with
  | zero => intro q _ y hy; simp [cbbLoop] at hy
  | succ m ih =>
      intro q hq y hy
      rw [cbbLoop3_cons] at hy
      rcases List.mem_cons.mp hy with rfl | hy2
      · split_ifs <;> omega
      · exact ih _ (by split_ifs <;> omega) y hy2

theorem cbbLoop_val (k : ℕ) : ∀ (q : ℤ), 0 ≤ q →
    ∃ qf, 0 ≤ qf ∧ tval (cbbLoop 3 1 false q k) + qf * 3 ^ k = q := by
  induction k with
  | zero => intro q hq; exact ⟨q, hq, by simp [cbbLoop, tval]⟩
  | succ m ih =>
      intro q hq
      obtain ⟨qf, hqf0, hqfv⟩ :=
        ih (if 1 < q % 3 then q / 3 + 1 else q / 3) (by split_ifs <;> omega)
      refine ⟨qf, hqf0, ?_⟩
      rw [cbbLoop3_cons, tval_cons, pow_succ]
      have hdm : 3 * (q / 3) + q % 3 = q := by omega
      split_ifs at hqfv ⊢ with h1
      · nlinarith [hqfv]
      · nlinarith [hqfv]

theorem convertBigintToBase_spec (n : ℤ) (h : 2 * |n| ≤ 3 ^ 243 - 1) :
    (convertBigintToBase n 3 243).length = 243 ∧
      TritList (convertBigintToBase n 3 243) ∧
      tval (convertBigintToBase n 3 243) = n := by
  have habs : 0 ≤ |n| := abs_nonneg n
  by_cases hn : n < 0
  · have hunf : convertBigintToBase n 3 243 = cbbLoop 3 1 true (|n|) 243 := by
      unfold convertBigintToBase
      rw [decide_eq_true hn]
      norm_num
    rw [hunf, cbbLoop_neg]
    obtain ⟨qf, hqf0, hqfv⟩ := cbbLoop_val 243 (|n|) habs
    have hd := cbbLoop_digits 243 (|n|) habs
    have hlen := cbbLoop_length 3 1 false (|n|) 243
    have hv : tval (cbbLoop 3 1 false (|n|) 243)
        + qf * 3 ^ (cbbLoop 3 1 false (|n|) 243).length = |n| := by
      rw [hlen]; exact hqfv
    obtain ⟨-, hval⟩ := carry_zero hd hv (by
      rw [hlen, abs_abs]; omega)
    refine ⟨by simp [hlen], tritList_map_neg hd, ?_⟩
    rw [tval_map_neg, hval, abs_of_neg hn]
    ring
  · have hn0 : 0 ≤ n := by omega
    have hunf : convertBigintToBase n 3 243 = cbbLoop 3 1 false (|n|) 243 := by
      unfold convertBigintToBase
      rw [decide_eq_false hn]
      norm_num
    rw [hunf]
    obtain ⟨qf, hqf0, hqfv⟩ := cbbLoop_val 243 (|n|) habs
    have hd := cbbLoop_digits 243 (|n|) habs
    have hlen := cbbLoop_length 3 1 false (|n|) 243
    have hv : tval (cbbLoop 3 1 false (|n|) 243)
        + qf * 3 ^ (cbbLoop 3 1 false (|n|) 243).length = |n| := by
      rw [hlen]; exact hqfv
    obtain ⟨-, hval⟩ := carry_zero hd hv (by
      rw [hlen, abs_abs]; omega)
    refine ⟨hlen, hd, ?_⟩
    rw [hval, abs_of_nonneg hn0]

theorem foldl_add_eq_sum (f : ℕ → ℤ) (n : ℕ) :
    (List.range n).foldl (fun b i => b + f i) 0 = ∑ i ∈ Finset.range n, f i := by
  induction n with
  | zero => rfl
  | succ m ih =>
      rw [List.range_succ, List.foldl_append, ih, Finset.sum_range_succ]
      rfl

theorem convertBaseToBigint_eq_tval (l : List ℤ) : convertBaseToBigint l 3 = tval l := by
  unfold convertBaseToBigint
  rw [foldl_add_eq_sum (fun i => l.getD i 0 * 3 ^ i) l.length,
    ← tval_eq_sum l l.length le_rfl]

/-- C9: for every integer of magnitude at most `(3^243 - 1) / 2`,
`convertBigintToBase n 3 243` yields exactly 243 digits in `{-1, 0, 1}` and
`convertBaseToBigint` maps them back to `n`. -/
theorem claim9_bigint_base_roundtrip (n : ℤ) (h : |n| ≤ ((3 : ℤ) ^ 243 - 1) / 2) :
    (convertBigintToBase n 3 243).length = 243 ∧
      (∀ d ∈ convertBigintToBase n 3 243, d = -1 ∨ d = 0 ∨ d = 1) ∧
      convertBaseToBigint (convertBigintToBase n 3 243) 3 = n := by
  have h2 : 2 * |n| ≤ 3 ^ 243 - 1 := by
    have := (Int.le_ediv_iff_mul_le (by norm_num : (0 : ℤ) < 2)).mp h
    linarith
  obtain ⟨h1, hd, hv⟩ := convertBigintToBase_spec n h2
  exact ⟨h1, fun d hdm => by have := hd d hdm; omega,
    by rw [convertBaseToBigint_eq_tval, hv]⟩

/-- Witness for C9 at `n = 256`. -/
theorem claim9_witness :
    |(256 : ℤ)| ≤ ((3 : ℤ) ^ 243 - 1) / 2 ∧
      ((convertBigintToBase 256 3 243).length = 243 ∧
        (∀ d ∈ convertBigintToBase 256 3 243, d = -1 ∨ d = 0 ∨ d = 1) ∧
        convertBaseToBigint (convertBigintToBase 256 3 243) 3 = 256) :=
  ⟨by decide, claim9_bigint_base_roundtrip 256 (by decide)⟩

/-! ### convertBigintToBytes / convertBytesToBigInt (C10) -/

theorem two_pow_mul8 (pos : ℕ) : (2 : ℤ) ^ (pos * 8) = 256 ^ pos := by
  rw [mul_comm, pow_mul]
  norm_num

theorem emod_pow_succ (m : ℤ) (hm : 0 ≤ m) (k : ℕ) :
    m % 256 ^ (k + 1) = m % 256 ^ k + 256 ^ k * ((m / 256 ^ k) % 256) := by
  have hp : (0 : ℤ) < 256 ^ k := by positivity
  have hqr := Int.ediv_add_emod m (256 ^ k)
  have hr0 : 0 ≤ m % 256 ^ k := Int.emod_nonneg m (by positivity)
  have hr1 : m % 256 ^ k < 256 ^ k := Int.emod_lt_of_pos m hp
  have hq2 := Int.ediv_add_emod (m / 256 ^ k) 256
  have h1 : 0 ≤ (m / 256 ^ k) % 256 := Int.emod_nonneg _ (by norm_num)
  have h2 : (m / 256 ^ k) % 256 < 256 := Int.emod_lt_of_pos _ (by norm_num)
  have key : m = (m % 256 ^ k + 256 ^ k * ((m / 256 ^ k) % 256))
      + 256 ^ (k + 1) * (m / 256 ^ k / 256) := by
    rw [pow_succ]
    linear_combination (-1 : ℤ) * hqr + (-(256 : ℤ) ^ k) * hq2
  conv_lhs => rw [key]
  rw [Int.add_mul_emod_self_left]
  apply Int.emod_eq_of_lt
  · nlinarith [mul_nonneg hp.le h1]
  · rw [pow_succ]
    nlinarith [mul_le_mul_of_nonneg_left
      (show (m / 256 ^ k) % 256 ≤ 255 by omega) hp.le]

theorem rawLE_digits (m : ℤ) (hm : 0 ≤ m) (k : ℕ) :
    rawLE ((List.range k).map (fun pos => (m / 2 ^ (pos * 8)) % 256)) = m % 256 ^ k := by
  induction k with
  | zero => simp [rawLE]
  | succ j ih =>
      rw [List.range_succ, List.map_append, rawLE_append, ih]
      simp only [List.map_cons, List.map_nil, rawLE, List.length_map, List.length_range]
      rw [two_pow_mul8, emod_pow_succ m hm j]
      ring

theorem uvalLE_map_toSigned (l : List ℤ) (h : ∀ x ∈ l, 0 ≤ x ∧ x ≤ 255) :
    uvalLE (l.map fun x => if x ≤ 127 then x else x - 256) = rawLE l := by
  induction l with
  | nil => rfl
  | cons x xs ih =>
      obtain ⟨h1, h2⟩ := h x (List.mem_cons_self x xs)
      simp only [List.map_cons, uvalLE, rawLE,
        ih (fun y hy => h y (List.mem_cons_of_mem x hy))]
      have hbu : byteU (if x ≤ 127 then x else x - 256) = x := by
        unfold byteU
        split_ifs <;> omega
      rw [hbu]

theorem byte_head_sign {b : List ℤ} (hne : b ≠ []) (hb : ByteList b) :
    (b.headD 0 < 0 ↔ 128 * 256 ^ (b.length - 1) ≤ uval b) := by
  cases b with
  | nil => exact absurd rfl hne
  | cons x xs =>
      obtain ⟨h1, h2⟩ := hb x (List.mem_cons_self x xs)
      rw [uval_cons]
      simp only [List.headD_cons, List.length_cons]
      have hlen : xs.length + 1 - 1 = xs.length := by omega
      rw [hlen]
      have hnn := uval_nonneg xs
      have hlt := uval_lt xs
      have hP : (0 : ℤ) < 256 ^ xs.length := by positivity
      constructor
      · intro hx
        have hbu : 128 ≤ byteU x := by unfold byteU; omega
        nlinarith
      · intro hge
        by_contra hx
        push_neg at hx
        have hbu : byteU x ≤ 127 := by unfold byteU; omega
        nlinarith

theorem sub1_compl_uval {b : List ℤ} (h1 : 1 ≤ uval b) :
    uval ((sub1 b).map fun x => -x - 1) = 256 ^ b.length - uval b := by
  have h1r : 1 ≤ uvalLE b.reverse := h1
  unfold uval sub1
  rw [← List.map_reverse, List.reverse_reverse, compl_val, sub1LE_length,
    List.length_reverse, sub1LE_val h1r]
  ring

theorem convertBytesToBigInt_eq_tcVal {b : List ℤ} (hne : b ≠ []) (hb : ByteList b) :
    convertBytesToBigInt b = tcVal b := by
  by_cases h : 0 ≤ b.headD 0
  · simp only [convertBytesToBigInt]
    rw [if_pos h, if_neg (show ¬(1 : ℤ) = -1 by norm_num)]
    unfold tcVal
    rw [if_neg (by omega)]
    ring
  · simp only [convertBytesToBigInt]
    rw [if_neg h, if_pos rfl]
    have hhead : b.headD 0 < 0 := by omega
    have hlen1 : 1 ≤ b.length := by
      cases b with
      | nil => exact absurd rfl hne
      | cons x xs => simp
    have hu1 : 1 ≤ uval b := by
      have hs := (byte_head_sign hne hb).mp hhead
      have hP : (0 : ℤ) < 256 ^ (b.length - 1) := by positivity
      nlinarith
    rw [sub1_compl_uval hu1]
    unfold tcVal
    rw [if_pos hhead]
    ring

theorem cbib_pos (n : ℤ) (hn : ¬ n < 0) :
    convertBigintToBytes n
      = ((List.range 48).map (fun pos => (|n| / 2 ^ (pos * 8)) % 256)).reverse.map
          (fun x => if x ≤ 127 then x else x - 256) := by
  simp only [convertBigintToBytes]
  rw [if_neg hn]

theorem cbib_neg (n : ℤ) (hn : n < 0) :
    convertBigintToBytes n
      = (add1LE (((((List.range 48).map (fun pos => (|n| / 2 ^ (pos * 8)) % 256)).reverse.map
          (fun x => if x ≤ 127 then x else x - 256)).map (fun x => -x - 1)).reverse)).reverse := by
  simp only [convertBigintToBytes]
  rw [if_pos hn]

theorem tcVal_of_pos_buffer {ba : List ℤ} (hlen : ba.length = 48) (hby : ByteList ba)
    {m : ℤ} (hm0 : 0 ≤ m) (hmlt : m ≤ 2 ^ 383 - 1) (hu : uval ba = m) : tcVal ba = m := by
  have hne : ba ≠ [] := by
    intro hh; rw [hh] at hlen; simp at hlen
  have hhd : ¬ ba.headD 0 < 0 := by
    intro hhd
    have hs := (byte_head_sign hne hby).mp hhd
    rw [hu, hlen] at hs
    have hE : (128 : ℤ) * 256 ^ (48 - 1) = 2 ^ 383 := by norm_num
    rw [hE] at hs
    omega
  unfold tcVal
  rw [if_neg hhd, hu]
  ring

theorem tcVal_of_neg_buffer {ba : List ℤ} (hlen : ba.length = 48) (hby : ByteList ba)
    {m : ℤ} (hm1 : 1 ≤ m) (hmle : m ≤ 2 ^ 383) (hu : uval ba = 256 ^ 48 - m) :
    tcVal ba = -m := by
  have hne : ba ≠ [] := by
    intro hh; rw [hh] at hlen; simp at hlen
  have hhd : ba.headD 0 < 0 := by
    rw [byte_head_sign hne hby, hu, hlen]
    have hE : (128 : ℤ) * 256 ^ (48 - 1) = 2 ^ 383 := by norm_num
    have hE2 : (256 : ℤ) ^ 48 = 2 ^ 384 := by norm_num
    have hE3 : (2 : ℤ) ^ 384 = 2 ^ 383 + 2 ^ 383 := by norm_num
    rw [hE, hE2]
    omega
  unfold tcVal
  rw [if_pos hhd, hu, hlen]
  ring

theorem convertBigintToBytes_spec (n : ℤ) (h1 : -(2 ^ 383) ≤ n) (h2 : n ≤ 2 ^ 383 - 1) :
    (convertBigintToBytes n).length = 48 ∧ ByteList (convertBigintToBytes n) ∧
      tcVal (convertBigintToBytes n) = n := by
  have habs0 : 0 ≤ |n| := abs_nonneg n
  have habs1 : |n| ≤ 2 ^ 383 := abs_le.mpr ⟨h1, by omega⟩
  have hElt : (2 : ℤ) ^ 383 < 256 ^ 48 := by norm_num
  have htb : ∀ x ∈ (List.range 48).map (fun pos => (|n| / 2 ^ (pos * 8)) % 256),
      0 ≤ x ∧ x ≤ 255 := by
    intro x hx
    obtain ⟨pos, -, rfl⟩ := List.mem_map.mp hx
    have ha := Int.emod_nonneg (|n| / 2 ^ (pos * 8)) (show (256 : ℤ) ≠ 0 by norm_num)
    have hc := Int.emod_lt_of_pos (|n| / 2 ^ (pos * 8)) (show (0 : ℤ) < 256 by norm_num)
    omega
  have hbau : uval (((List.range 48).map (fun pos => (|n| / 2 ^ (pos * 8)) % 256)).reverse.map
      (fun x => if x ≤ 127 then x else x - 256)) = |n| := by
    unfold uval
    rw [← List.map_reverse, List.reverse_reverse, uvalLE_map_toSigned _ htb,
      rawLE_digits (|n|) habs0 48]
    exact Int.emod_eq_of_lt habs0 (by omega)
  have hbalen : (((List.range 48).map (fun pos => (|n| / 2 ^ (pos * 8)) % 256)).reverse.map
      (fun x => if x ≤ 127 then x else x - 256)).length = 48 := by
    simp
  have hbab : ByteList (((List.range 48).map (fun pos => (|n| / 2 ^ (pos * 8)) % 256)).reverse.map
      (fun x => if x ≤ 127 then x else x - 256)) := by
    intro y hy
    obtain ⟨x, hx, rfl⟩ := List.mem_map.mp hy
    have := htb x (List.mem_reverse.mp hx)
    split_ifs <;> omega
  by_cases hn : n < 0
  · rw [cbib_neg n hn]
    have hm1 : 1 ≤ |n| := by
      rw [abs_of_neg hn]; omega
    have hcomplen : ((((List.range 48).map (fun pos => (|n| / 2 ^ (pos * 8)) % 256)).reverse.map
        (fun x => if x ≤ 127 then x else x - 256)).map (fun x => -x - 1)).length = 48 := by
      rw [List.length_map]
      exact hbalen
    have hcompby : ByteList ((((List.range 48).map (fun pos => (|n| / 2 ^ (pos * 8)) % 256)).reverse.map
        (fun x => if x ≤ 127 then x else x - 256)).map (fun x => -x - 1)) :=
      compl_bytes hbab
    have hcompu : uval ((((List.range 48).map (fun pos => (|n| / 2 ^ (pos * 8)) % 256)).reverse.map
        (fun x => if x ≤ 127 then x else x - 256)).map (fun x => -x - 1))
        = 256 ^ 48 - 1 - |n| := by
      unfold uval
      rw [← List.map_reverse, compl_val, List.length_reverse, hbalen]
      have hbau2 : uvalLE (((List.range 48).map (fun pos => (|n| / 2 ^ (pos * 8)) % 256)).reverse.map
          (fun x => if x ≤ 127 then x else x - 256)).reverse = |n| := hbau
      rw [hbau2]
    have hfinu : uval ((add1LE (((((List.range 48).map
        (fun pos => (|n| / 2 ^ (pos * 8)) % 256)).reverse.map
        (fun x => if x ≤ 127 then x else x - 256)).map (fun x => -x - 1)).reverse)).reverse)
        = 256 ^ 48 - |n| := by
      unfold uval
      rw [List.reverse_reverse, add1LE_val, List.length_reverse, hcomplen]
      have : uvalLE ((((List.range 48).map (fun pos => (|n| / 2 ^ (pos * 8)) % 256)).reverse.map
          (fun x => if x ≤ 127 then x else x - 256)).map (fun x => -x - 1)).reverse
          = 256 ^ 48 - 1 - |n| := hcompu
      rw [this]
      have harith : 256 ^ 48 - 1 - |n| + 1 = 256 ^ 48 - |n| := by ring
      rw [harith]
      exact Int.emod_eq_of_lt (by omega) (by omega)
    have hfinlen : ((add1LE (((((List.range 48).map
        (fun pos => (|n| / 2 ^ (pos * 8)) % 256)).reverse.map
        (fun x => if x ≤ 127 then x else x - 256)).map (fun x => -x - 1)).reverse)).reverse).length
        = 48 := by
      rw [List.length_reverse, add1LE_length, List.length_reverse]
      exact hcomplen
    have hfinby : ByteList ((add1LE (((((List.range 48).map
        (fun pos => (|n| / 2 ^ (pos * 8)) % 256)).reverse.map
        (fun x => if x ≤ 127 then x else x - 256)).map (fun x => -x - 1)).reverse)).reverse) := by
      intro y hy
      refine add1LE_bytes (fun z hz => hcompby z (List.mem_reverse.mp hz)) y
        (List.mem_reverse.mp hy)
    refine ⟨hfinlen, hfinby, ?_⟩
    have := tcVal_of_neg_buffer hfinlen hfinby hm1 habs1 hfinu
    rw [this, abs_of_neg hn]
    ring
  · rw [cbib_pos n hn]
    have hn0 : 0 ≤ n := by omega
    have habsn : |n| = n := abs_of_nonneg hn0
    refine ⟨hbalen, hbab, ?_⟩
    exact tcVal_of_pos_buffer hbalen hbab hn0 (by omega)
      (by rw [hbau, habsn])

/-- C10: every integer in `[-2^383, 2^383 - 1]` converts to exactly 48
signed bytes in `[-128, 127]` which `convertBytesToBigInt` maps back to the
original integer. -/
theorem claim10_bigint_bytes_roundtrip (n : ℤ) (h1 : -(2 ^ 383) ≤ n)
    (h2 : n ≤ 2 ^ 383 - 1) :
    (convertBigintToBytes n).length = 48 ∧
      (∀ x ∈ convertBigintToBytes n, -128 ≤ x ∧ x ≤ 127) ∧
      convertBytesToBigInt (convertBigintToBytes n) = n := by
  obtain ⟨hl, hby, htc⟩ := convertBigintToBytes_spec n h1 h2
  have hne : convertBigintToBytes n ≠ [] := by
    intro hh; rw [hh] at hl; simp at hl
  exact ⟨hl, hby, by rw [convertBytesToBigInt_eq_tcVal hne hby, htc]⟩

/-- Witness for C10 at `n = -977`. -/
theorem claim10_witness :
    -(2 ^ 383) ≤ (-977 : ℤ) ∧ (-977 : ℤ) ≤ 2 ^ 383 - 1 ∧
      ((convertBigintToBytes (-977)).length = 48 ∧
        (∀ x ∈ convertBigintToBytes (-977), -128 ≤ x ∧ x ≤ 127) ∧
        convertBytesToBigInt (convertBigintToBytes (-977)) = -977) :=
  ⟨by decide, by decide, claim10_bigint_bytes_roundtrip (-977) (by decide) (by decide)⟩

end KerlConv
